import Mathlib

/-!
# Verification of the TSDB block generator

Shallow embedding of the block-construction pipeline of the `tsdb` package
(`CreateThanosTSDB`, `createBlock`, `populateChunks`, `createIndex`,
`createEmptyTimeseries`) together with proofs about the spec's properties.

Modelling conventions:

* Times (`time.Time`) and durations (`time.Duration`) are integer
  nanoseconds (`Int`), exactly as Go stores them.  `t.Unix()` is floor
  division by 10^9 (Go represents a time as whole seconds plus a
  non-negative nanosecond part, so its `Unix()` is the floor).  Go's
  `int64` division (used for `Duration.Nanoseconds()` quotients) is
  truncated division, `Int.tdiv`.
* The external chunk payload codec (`chunkenc.NewXORChunk`) is abstracted
  by a size function `Int → Nat` per series giving the number of encoded
  bytes for the chunk starting at a given time; the generated float values
  never influence control flow except through that size.
* The `uint64` chunk reference computed by `ref | (seg << 32)` is modelled
  on `Nat` with an explicit reduction modulo `2 ^ 64`.
* File-system side effects (chunk writer, index writer, `meta.json`) are
  modelled by the values the code hands to those writers.
-/

namespace TSDBGen

/-- The amount of overhead data per chunk: 2 bytes data length, 1 byte
version, 4 bytes CRC hash. -/
def chunkOverheadSize : Nat := 7

/-- TSDB enforces that each segment must be at most 512MB. -/
def maxSegmentSize : Nat := 1024 * 1024 * 512

/-- Maximum chunk size (chunks are kept small for performance). -/
def maxChunkSize : Nat := 1024 * 16

/-- TSDB allows a maximum of 120 samples per chunk. -/
def samplesPerChunk : Nat := 120

/-- The size of the header for each segment file. -/
def segmentStartOffset : Nat := 8

/-- `t.Unix()` for a time `t` in nanoseconds since the epoch: Go stores a
time as whole seconds plus nanoseconds in `[0, 10^9)`, so `Unix()` is the
floor of `t / 10^9`; `Int` division is Euclidean division, which is the
floor for a positive divisor. -/
def unixSec (t : Int) : Int := t / 1000000000

/-- `t.Unix() * 1000`, the millisecond timestamps the generator writes. -/
def unixMs (t : Int) : Int := unixSec t * 1000

/-- The list of loop-variable values taken by a Go loop
`for w := start; w.Before(stop); w = w.Add(step)`: the block loop of
`CreateThanosTSDB`, the chunk loop and the sample loop of
`populateChunks` all have this shape.  Total function for the
terminating case; the partial behaviour of the Go loop (including
non-termination for a non-positive step) is modelled by `loopFuel`
below. -/
def gridStarts (start stop step : Int) : List Int :=
  if _h : 0 < step ∧ start < stop then
    start :: gridStarts (start + step) stop step
  else []
termination_by (stop - start).toNat
decreasing_by omega

theorem gridStarts_neg (h : ¬(0 < step ∧ start < stop)) :
    gridStarts start stop step = [] := by
  rw [gridStarts, dif_neg h]

theorem gridStarts_pos (hstep : 0 < step) (hlt : start < stop) :
    gridStarts start stop step = start :: gridStarts (start + step) stop step := by
  rw [gridStarts, dif_pos ⟨hstep, hlt⟩]

/-- Every loop iteration satisfies the loop guard `w < stop`, and is of
the form `start + k * step`. -/
theorem mem_gridStarts {start stop step x : Int} (hstep : 0 < step) :
    x ∈ gridStarts start stop step ↔ ∃ k : Nat, x = start + k * step ∧ x < stop := by
  revert hstep
  induction start, stop, step using gridStarts.induct with
  | case1 start stop step h ih =>
    intro hstep
    rw [gridStarts_pos h.1 h.2]
    constructor
    · intro hx
      rcases List.mem_cons.mp hx with rfl | hx
      · exact ⟨0, by simp, h.2⟩
      · obtain ⟨k, hk, hlt⟩ := (ih hstep).mp hx
        refine ⟨k + 1, ?_, hlt⟩
        push_cast [hk]; ring
    · rintro ⟨k, rfl, hlt⟩
      match k with
      | 0 => simp
      | k + 1 =>
        refine List.mem_cons_of_mem _ ((ih hstep).mpr ⟨k, ?_, ?_⟩)
        · push_cast; ring
        · push_cast at hlt ⊢; omega
  | case2 start stop step h =>
    intro hstep
    rw [gridStarts_neg h]
    simp only [List.not_mem_nil, false_iff, not_exists, not_and]
    intro k hk
    rcases not_and.mp h hstep with h'
    have hk0 : (0 : Int) ≤ k * step := by positivity
    omega

/-- All iterations are at least `start`. -/
theorem gridStarts_le {start stop step x : Int} (hstep : 0 < step)
    (hx : x ∈ gridStarts start stop step) : start ≤ x := by
  obtain ⟨k, rfl, -⟩ := (mem_gridStarts hstep).mp hx
  have : (0 : Int) ≤ k * step := by positivity
  omega

/-- All iterations satisfy the loop guard. -/
theorem gridStarts_lt_stop {start stop step x : Int} (hstep : 0 < step)
    (hx : x ∈ gridStarts start stop step) : x < stop := by
  obtain ⟨k, rfl, h⟩ := (mem_gridStarts hstep).mp hx
  exact h

/-- Successive iterations are exactly `step` apart. -/
theorem gridStarts_chain (start stop step : Int) :
    (gridStarts start stop step).Chain' (fun a b => b = a + step) := by
  induction start, stop, step using gridStarts.induct with
  | case1 start stop step h ih =>
    rw [gridStarts_pos h.1 h.2]
    refine List.chain'_cons'.mpr ⟨?_, ih⟩
    intro y hy
    rw [gridStarts] at hy
    split at hy
    · simp_all
    · simp at hy
  | case2 start stop step h => rw [gridStarts_neg h]; exact List.chain'_nil

/-- Distinct iterations are at least `step` apart: the windows
`[w, w + step)` are pairwise disjoint. -/
theorem gridStarts_pairwise {start stop step : Int} (hstep : 0 < step) :
    (gridStarts start stop step).Pairwise (fun a b => a + step ≤ b) := by
  revert hstep
  induction start, stop, step using gridStarts.induct with
  | case1 start stop step h ih =>
    intro hstep
    rw [gridStarts_pos h.1 h.2]
    refine List.pairwise_cons.mpr ⟨fun y hy => ?_, ih hstep⟩
    exact gridStarts_le h.1 hy
  | case2 start stop step h =>
    intro hstep
    rw [gridStarts_neg h]; exact List.Pairwise.nil

/-- Coverage: every instant `t` of `[start, stop)` lies in the half-open
window `[w, w + step)` of some iteration `w`. -/
theorem gridStarts_cover {start stop step : Int} (hstep : 0 < step)
    {t : Int} (h1 : start ≤ t) (h2 : t < stop) :
    ∃ w ∈ gridStarts start stop step, w ≤ t ∧ t < w + step := by
  have hq := Int.ediv_add_emod (t - start) step
  have hr0 : 0 ≤ (t - start) % step := Int.emod_nonneg _ (by omega)
  have hrlt : (t - start) % step < step := Int.emod_lt_of_pos _ hstep
  have hq0 : 0 ≤ (t - start) / step := Int.ediv_nonneg (by omega) (by omega)
  have hq' : (t - start) / step * step = step * ((t - start) / step) := mul_comm _ _
  refine ⟨start + ((t - start) / step).toNat * step, ?_, ?_, ?_⟩
  · rw [mem_gridStarts hstep]
    refine ⟨((t - start) / step).toNat, rfl, ?_⟩
    rw [Int.toNat_of_nonneg hq0]; omega
  · rw [Int.toNat_of_nonneg hq0]; omega
  · rw [Int.toNat_of_nonneg hq0]; omega

/-- Every iteration except the last one has its whole window inside
`[start, stop)`: only the last window may extend past `stop`. -/
theorem gridStarts_dropLast {start stop step : Int} :
    ∀ w ∈ (gridStarts start stop step).dropLast, w + step ≤ stop := by
  induction start, stop, step using gridStarts.induct with
  | case1 s e d h ih =>
    intro w hw
    rw [gridStarts_pos h.1 h.2] at hw
    rcases hrest : gridStarts (s + d) e d with - | ⟨b, bs⟩
    · rw [hrest] at hw; simp at hw
    · rw [hrest, List.dropLast_cons_of_ne_nil (by simp)] at hw
      rcases List.mem_cons.mp hw with rfl | hw'
      · have hb : b ∈ gridStarts (w + d) e d := by
          rw [hrest]; exact List.mem_cons_self _ _
        have h1 := gridStarts_lt_stop h.1 hb
        have h2 := gridStarts_le h.1 hb
        omega
      · exact ih w (by rw [hrest]; exact hw')
  | case2 s e d h =>
    intro w hw
    rw [gridStarts_neg h] at hw
    simp at hw

/-- The first iteration starts exactly at `start`. -/
theorem gridStarts_head (hstep : 0 < step) (hlt : start < stop) :
    (gridStarts start stop step).head? = some start := by
  rw [gridStarts_pos hstep hlt]; rfl

/-- Fuel-indexed semantics of the Go loop
`for w := start; w.Before(stop); w = w.Add(step)`: `none` means the fuel
ran out with the loop still running, `some ws` means the loop finished
after taking the iteration values `ws`.  The loop terminates if and only
if some amount of fuel suffices. -/
def loopFuel : Nat → Int → Int → Int → Option (List Int)
  | 0, start, stop, _ => if start < stop then none else some []
  | n + 1, start, stop, step =>
    if start < stop then
      (loopFuel n (start + step) stop step).map (start :: ·)
    else some []

theorem loopFuel_succ {stop step : Int} :
    ∀ {f : Nat} {start : Int} {l : List Int},
      loopFuel f start stop step = some l →
      loopFuel (f + 1) start stop step = some l := by
  intro f
  induction f with
  | zero =>
    intro start l h0
    rw [loopFuel] at h0
    split at h0
    · exact absurd h0 (by simp)
    · rw [loopFuel, if_neg (by assumption)]
      exact h0
  | succ n ihn =>
    intro start l hn
    rw [loopFuel] at hn
    rw [loopFuel]
    split at hn
    · rcases hmap : loopFuel n (start + step) stop step with - | l'
      · rw [hmap] at hn; simp at hn
      · rw [hmap] at hn
        simp only [Option.map_some'] at hn
        rw [if_pos (by assumption), ihn hmap]
        simpa using hn
    · rw [if_neg (by assumption)]
      exact hn

theorem loopFuel_mono {stop step : Int} {start : Int} {l : List Int}
    {f f' : Nat} (hle : f ≤ f')
    (hf : loopFuel f start stop step = some l) :
    loopFuel f' start stop step = some l := by
  induction f' with
  | zero => exact Nat.le_zero.mp hle ▸ hf
  | succ n ihn =>
    rcases eq_or_lt_of_le hle with rfl | hlt
    · exact hf
    · exact loopFuel_succ (ihn (by omega))

/-- With a positive step, fuel `(stop - start).toNat` completes the loop
and yields exactly the `gridStarts` iteration values. -/
theorem loopFuel_gridStarts {start stop step : Int} (hstep : 0 < step) :
    loopFuel (stop - start).toNat start stop step
      = some (gridStarts start stop step) := by
  revert hstep
  induction start, stop, step using gridStarts.induct with
  | case1 s e d h ih =>
    intro hstep
    rw [gridStarts_pos h.1 h.2]
    have hn : (e - s).toNat = ((e - s).toNat - 1) + 1 := by omega
    rw [hn, loopFuel, if_pos h.2]
    have hle : (e - (s + d)).toNat ≤ (e - s).toNat - 1 := by omega
    rw [loopFuel_mono hle (ih hstep)]
    rfl
  | case2 s e d h =>
    intro hstep
    rw [gridStarts_neg h]
    have hns : ¬s < e := fun hlt => h ⟨hstep, hlt⟩
    have h0 : (e - s).toNat = 0 := by omega
    rw [h0, loopFuel, if_neg hns]

/-- With a non-positive step and a non-trivial range, no amount of fuel
finishes the loop: the Go loop runs forever. -/
theorem loopFuel_nonpos {stop step : Int} (hstep : step ≤ 0) :
    ∀ (fuel : Nat) (start : Int), start < stop →
      loopFuel fuel start stop step = none := by
  intro fuel
  induction fuel with
  | zero => intro start hlt; rw [loopFuel, if_pos hlt]
  | succ n ihn =>
    intro start hlt
    rw [loopFuel, if_pos hlt, ihn (start + step) (by omega)]
    rfl

/-! ## The segment allocator

`populateChunks` keeps a cursor `ref` (byte offset inside the current
segment file, starting at the segment header size) and a segment index
`seg`, both initialised once per block.  For each chunk of computed size
`size` it rolls over to a fresh segment when the chunk does not fit,
assigns the chunk the packed `uint64` reference `ref | (seg << 32)`, and
advances the cursor. -/

/-- One allocation step: the rollover test `ref+size > maxSegmentSize`,
followed by reference assignment and cursor advance.  Returns the state
after the chunk together with the `(offset, segment)` pair the chunk was
placed at. -/
def allocStep (st : Nat × Nat) (size : Nat) : (Nat × Nat) × Nat × Nat :=
  let p := if maxSegmentSize < st.1 + size then (segmentStartOffset, st.2 + 1) else st
  ((p.1 + size, p.2), p)

/-- The packed chunk reference `ref | (seg << 32)` as computed on Go
`uint64` values (wrapping at `2 ^ 64`). -/
def goRef (off seg : Nat) : Nat := (off ||| seg <<< 32) % 2 ^ 64

/-- Trace record for one chunk allocation: the cursor offset and segment
index used at encode time, the chunk's computed size, and the packed
reference assigned to the chunk. -/
structure AllocRec where
  off : Nat
  seg : Nat
  size : Nat
  ref : Nat
deriving Repr, DecidableEq

/-- The allocator run over the computed sizes of all chunks of a block
(in production order), including the `size > maxChunkSize` abort check
that precedes every allocation.  Mirrors the per-chunk tail of the
`populateChunks` loop body. -/
def allocChunks : List Nat → Nat × Nat → Except String (List AllocRec × (Nat × Nat))
  | [], st => .ok ([], st)
  | size :: rest, st =>
    if maxChunkSize < size then .error "chunk too big"
    else
      match allocChunks rest (allocStep st size).1 with
      | .error e => .error e
      | .ok (recs, stF) =>
        .ok (⟨(allocStep st size).2.1, (allocStep st size).2.2, size,
              goRef (allocStep st size).2.1 (allocStep st size).2.2⟩ :: recs, stF)

theorem goRef_eq_of_lt {off seg : Nat} (hoff : off < 2 ^ 32) (hseg : seg < 2 ^ 32) :
    goRef off seg = off ||| seg <<< 32 := by
  unfold goRef
  apply Nat.mod_eq_of_lt
  apply Nat.or_lt_two_pow (lt_trans hoff (by norm_num))
  rw [Nat.shiftLeft_eq]
  calc seg * 2 ^ 32 < 2 ^ 32 * 2 ^ 32 := (Nat.mul_lt_mul_right (by norm_num)).mpr hseg
    _ = 2 ^ 64 := by norm_num

/-- Decoding a packed reference as `(ref & 0xFFFFFFFF, ref >> 32)`
recovers the offset and segment index, provided both fit in 32 bits. -/
theorem goRef_decode {off seg : Nat} (hoff : off < 2 ^ 32) (hseg : seg < 2 ^ 32) :
    goRef off seg &&& 0xFFFFFFFF = off ∧ goRef off seg >>> 32 = seg := by
  rw [goRef_eq_of_lt hoff hseg]
  constructor
  · rw [show (0xFFFFFFFF : Nat) = 2 ^ 32 - 1 from by norm_num]
    apply Nat.eq_of_testBit_eq
    intro i
    simp only [Nat.testBit_and, Nat.testBit_two_pow_sub_one, Nat.testBit_or,
      Nat.testBit_shiftLeft]
    by_cases hi : i < 32
    · simp [hi, show ¬32 ≤ i from by omega]
    · have hbit : off.testBit i = false :=
        Nat.testBit_lt_two_pow
          (lt_of_lt_of_le hoff (Nat.pow_le_pow_right (by norm_num) (by omega)))
      simp [hi, hbit]
  · apply Nat.eq_of_testBit_eq
    intro i
    simp only [Nat.testBit_shiftRight, Nat.testBit_or, Nat.testBit_shiftLeft]
    have hbit : off.testBit (32 + i) = false :=
      Nat.testBit_lt_two_pow
        (lt_of_lt_of_le hoff (Nat.pow_le_pow_right (by norm_num) (by omega)))
    simp [hbit, Nat.le_add_right, Nat.add_sub_cancel_left]

theorem allocStep_roll {st : Nat × Nat} {size : Nat}
    (h : maxSegmentSize < st.1 + size) :
    allocStep st size
      = ((segmentStartOffset + size, st.2 + 1), (segmentStartOffset, st.2 + 1)) := by
  simp [allocStep, h]

theorem allocStep_fit {st : Nat × Nat} {size : Nat}
    (h : ¬maxSegmentSize < st.1 + size) :
    allocStep st size = ((st.1 + size, st.2), (st.1, st.2)) := by
  simp [allocStep, h]

/-- Main allocator invariant.  Starting from a cursor inside
`[segmentStartOffset, maxSegmentSize]`, a successful run records for
every chunk: its size (below the abort threshold), an in-segment
placement `off + size ≤ maxSegmentSize`, the packed reference, a segment
index that never decreases and grows by at most one per chunk, the
rollover rule for the first record, and cursor/segment bookkeeping
between consecutive records. -/
theorem allocChunks_spec :
    ∀ (sizes : List Nat) (st : Nat × Nat) (recs : List AllocRec) (stF : Nat × Nat),
      segmentStartOffset ≤ st.1 → st.1 ≤ maxSegmentSize →
      allocChunks sizes st = .ok (recs, stF) →
      recs.map (fun r => r.size) = sizes ∧
      (∀ r ∈ recs,
        r.size ≤ maxChunkSize ∧
        segmentStartOffset ≤ r.off ∧
        r.off + r.size ≤ maxSegmentSize ∧
        r.ref = goRef r.off r.seg ∧
        st.2 ≤ r.seg ∧ r.seg ≤ st.2 + sizes.length) ∧
      (∀ r, recs.head? = some r →
        if maxSegmentSize < st.1 + r.size
        then r.off = segmentStartOffset ∧ r.seg = st.2 + 1
        else r.off = st.1 ∧ r.seg = st.2) ∧
      recs.Chain' (fun a b =>
        (b.seg = a.seg ∧ b.off = a.off + a.size) ∨
        (b.seg = a.seg + 1 ∧ b.off = segmentStartOffset)) := by
  intro sizes
  induction sizes with
  | nil =>
    intro st recs stF h8 hmax h
    rw [allocChunks] at h
    obtain ⟨rfl, rfl⟩ : [] = recs ∧ st = stF := by
      simpa using h
    simp
  | cons size rest ih =>
    intro st recs stF h8 hmax h
    rw [allocChunks] at h
    split at h
    · exact absurd h (by simp)
    · rename_i hbig
      have hsize : size ≤ maxChunkSize := by omega
      cases hrec : allocChunks rest (allocStep st size).1 with
      | error e => rw [hrec] at h; exact absurd h (by simp)
      | ok pr =>
        obtain ⟨recs', stF'⟩ := pr
        rw [hrec] at h
        simp only [Except.ok.injEq, Prod.mk.injEq] at h
        obtain ⟨rfl, rfl⟩ := h
        have hchunkseg : segmentStartOffset + maxChunkSize ≤ maxSegmentSize := by
          norm_num [segmentStartOffset, maxChunkSize, maxSegmentSize]
        have hlen : (size :: rest).length = rest.length + 1 := rfl
        by_cases hroll : maxSegmentSize < st.1 + size
        · rw [allocStep_roll hroll] at hrec
          obtain ⟨ihmap, ihall, ihhead, ihchain⟩ :=
            ih (segmentStartOffset + size, st.2 + 1) recs' stF'
              (by omega) (by omega) hrec
          rw [allocStep_roll hroll]
          dsimp only
          refine ⟨by simpa using ihmap, ?_, ?_, ?_⟩
          · intro r hr
            rcases List.mem_cons.mp hr with rfl | hr'
            · refine ⟨hsize, ?_, ?_, rfl, ?_, ?_⟩ <;> (dsimp only; omega)
            · obtain ⟨ha, hb, hc, hd, he, hf⟩ := ihall r hr'
              exact ⟨ha, hb, hc, hd, by omega, by omega⟩
          · intro r hrhead
            simp only [List.head?_cons, Option.some.injEq] at hrhead
            subst hrhead
            rw [if_pos hroll]
            exact ⟨rfl, rfl⟩
          · refine List.chain'_cons'.mpr ⟨?_, ihchain⟩
            intro y hy
            have := ihhead y hy
            split at this
            · exact Or.inr ⟨by dsimp only; omega, this.1⟩
            · rename_i hfit
              exact Or.inl ⟨this.2, by rw [this.1]⟩
        · rw [allocStep_fit hroll] at hrec
          obtain ⟨ihmap, ihall, ihhead, ihchain⟩ :=
            ih (st.1 + size, st.2) recs' stF' (by omega) (by omega) hrec
          rw [allocStep_fit hroll]
          dsimp only
          refine ⟨by simpa using ihmap, ?_, ?_, ?_⟩
          · intro r hr
            rcases List.mem_cons.mp hr with rfl | hr'
            · refine ⟨hsize, ?_, ?_, rfl, ?_, ?_⟩ <;> (dsimp only; omega)
            · obtain ⟨ha, hb, hc, hd, he, hf⟩ := ihall r hr'
              exact ⟨ha, hb, hc, hd, by omega, by omega⟩
          · intro r hrhead
            simp only [List.head?_cons, Option.some.injEq] at hrhead
            subst hrhead
            rw [if_neg hroll]
            exact ⟨rfl, rfl⟩
          · refine List.chain'_cons'.mpr ⟨?_, ihchain⟩
            intro y hy
            have := ihhead y hy
            split at this
            · exact Or.inr ⟨by dsimp only; omega, this.1⟩
            · exact Or.inl ⟨this.2, by rw [this.1]⟩

/-- C1: within a block the segment allocator starts at
`(segmentIndex, cursor) = (0, headerSize)`, rolls over (resetting the
cursor to the header size and incrementing the segment index) whenever a
chunk would not fit, assigns each chunk the packed reference before
advancing the cursor, decoding any assigned reference as
`(ref & 0xFFFFFFFF, ref >> 32)` recovers exactly the
`(offset, segmentIndex)` pair used at encode time, and
`offset + chunkSize ≤ maxSegmentSize` holds for every chunk.  (Stated
for blocks of fewer than `2 ^ 32` chunks, so that the segment index fits
the 32 high bits of the `uint64` reference.) -/
theorem C1_segment_allocator (sizes : List Nat) (recs : List AllocRec)
    (stF : Nat × Nat) (hlen : sizes.length < 2 ^ 32)
    (h : allocChunks sizes (segmentStartOffset, 0) = .ok (recs, stF)) :
    recs.map (fun r => r.size) = sizes ∧
    (∀ r, recs.head? = some r → r.off = segmentStartOffset ∧ r.seg = 0) ∧
    recs.Chain' (fun a b =>
      (b.seg = a.seg ∧ b.off = a.off + a.size) ∨
      (b.seg = a.seg + 1 ∧ b.off = segmentStartOffset)) ∧
    (∀ r ∈ recs,
      r.ref = goRef r.off r.seg ∧
      r.ref &&& 0xFFFFFFFF = r.off ∧
      r.ref >>> 32 = r.seg ∧
      r.off + r.size ≤ maxSegmentSize) := by
  obtain ⟨hmap, hall, hhead, hchain⟩ :=
    allocChunks_spec sizes (segmentStartOffset, 0) recs stF (le_refl _)
      (by norm_num [segmentStartOffset, maxSegmentSize]) h
  have hsegbound : maxSegmentSize < 2 ^ 32 := by norm_num [maxSegmentSize]
  refine ⟨hmap, ?_, hchain, ?_⟩
  · intro r hr
    have hmem : r ∈ recs := List.mem_of_mem_head? hr
    obtain ⟨hsz, -, -, -, -, -⟩ := hall r hmem
    have := hhead r hr
    rw [if_neg (by norm_num [segmentStartOffset, maxSegmentSize, maxChunkSize] at hsz ⊢; omega)] at this
    exact this
  · intro r hr
    obtain ⟨hsz, hoff8, hbound, href, hseg0, hsegle⟩ := hall r hr
    have hofflt : r.off < 2 ^ 32 := by omega
    have hseglt : r.seg < 2 ^ 32 := by simp only [Nat.zero_add] at hsegle; omega
    obtain ⟨hlow, hhigh⟩ := goRef_decode hofflt hseglt
    exact ⟨href, by rw [href]; exact hlow, by rw [href]; exact hhigh, hbound⟩

/-- Witness for C1: a concrete two-chunk run from the initial state. -/
theorem C1_segment_allocator_witness :
    ([100, 200] : List Nat).length < 2 ^ 32 ∧
    allocChunks [100, 200] (segmentStartOffset, 0)
      = .ok ([⟨8, 0, 100, 8⟩, ⟨108, 0, 200, 108⟩], (308, 0)) ∧
    (([⟨8, 0, 100, 8⟩, ⟨108, 0, 200, 108⟩] : List AllocRec).map (fun r => r.size)
        = [100, 200] ∧
      (∀ r, ([⟨8, 0, 100, 8⟩, ⟨108, 0, 200, 108⟩] : List AllocRec).head? = some r →
        r.off = segmentStartOffset ∧ r.seg = 0) ∧
      ([⟨8, 0, 100, 8⟩, ⟨108, 0, 200, 108⟩] : List AllocRec).Chain' (fun a b =>
        (b.seg = a.seg ∧ b.off = a.off + a.size) ∨
        (b.seg = a.seg + 1 ∧ b.off = segmentStartOffset)) ∧
      (∀ r ∈ ([⟨8, 0, 100, 8⟩, ⟨108, 0, 200, 108⟩] : List AllocRec),
        r.ref = goRef r.off r.seg ∧
        r.ref &&& 0xFFFFFFFF = r.off ∧
        r.ref >>> 32 = r.seg ∧
        r.off + r.size ≤ maxSegmentSize)) :=
  ⟨by decide, by rfl,
    C1_segment_allocator [100, 200] [⟨8, 0, 100, 8⟩, ⟨108, 0, 200, 108⟩]
      (308, 0) (by decide) (by rfl)⟩

/-! ## The chunk builder (`populateChunks`) -/

/-- Millisecond value of one sample interval as computed by the code:
`sampleInterval.Nanoseconds() / (1000 * 1000)` with Go `int64`
(truncated) division. -/
def ivMs (iv : Int) : Int := iv.tdiv 1000000

/-- Timestamps of the samples encoded into the chunk starting at `cs`:
the sample loop runs from `cs` in steps of `iv` while strictly before
`cs + iv * samplesPerChunk`, and each sample's timestamp is
`sample.Unix() * 1000`. -/
def sampleTimes (cs iv : Int) : List Int :=
  (gridStarts cs (cs + iv * (samplesPerChunk : Int)) iv).map unixMs

/-- Chunk metadata as recorded by `populateChunks`: `MinTime` is the
chunk start in (second-truncated) milliseconds, `MaxTime` is `MinTime`
plus a single sample interval in milliseconds, and `Ref` is the packed
segment reference. -/
structure ChunkMetaR where
  minTime : Int
  maxTime : Int
  ref : Nat
deriving Repr, DecidableEq

/-- The per-series chunk loop of `populateChunks`: for each chunk start,
compute the encoded size plus framing overhead, abort if it exceeds
`maxChunkSize`, allocate the chunk in the current segment, and append
the chunk metadata record.  `encSize cs` abstracts the external XOR
codec's output size for the chunk starting at `cs`. -/
def popSeries (encSize : Int → Nat) (iv : Int) :
    List Int → Nat × Nat → Except String (List ChunkMetaR × (Nat × Nat))
  | [], st => .ok ([], st)
  | cs :: rest, st =>
    if maxChunkSize < encSize cs + chunkOverheadSize then .error "chunk too big"
    else
      match popSeries encSize iv rest (allocStep st (encSize cs + chunkOverheadSize)).1 with
      | .error e => .error e
      | .ok (ms, stF) =>
        .ok (⟨unixMs cs, unixMs cs + ivMs iv,
              goRef (allocStep st (encSize cs + chunkOverheadSize)).2.1
                (allocStep st (encSize cs + chunkOverheadSize)).2.2⟩ :: ms, stF)

/-- The series loop of `populateChunks`: series are processed in input
order, the allocator state flows across series, and every series gets a
chunk for every chunk window of the block. -/
def popAllSeries (iv bs be : Int) :
    List (Int → Nat) → Nat × Nat →
      Except String (List (List ChunkMetaR) × (Nat × Nat))
  | [], st => .ok ([], st)
  | f :: fs, st =>
    match popSeries f iv (gridStarts bs be (iv * (samplesPerChunk : Int))) st with
    | .error e => .error e
    | .ok (ms, st') =>
      match popAllSeries iv bs be fs st' with
      | .error e => .error e
      | .ok (mss, stF) => .ok (ms :: mss, stF)

/-- `populateChunks` for one block: the allocator state starts at
`(segmentStartOffset, 0)`, and the chunk windows have length
`sampleInterval * samplesPerChunk`. -/
def populateChunks (encSizes : List (Int → Nat)) (bs be iv : Int) :
    Except String (List (List ChunkMetaR)) :=
  match popAllSeries iv bs be encSizes (segmentStartOffset, 0) with
  | .error e => .error e
  | .ok (mss, _) => .ok mss

/-- A successful per-series run implies every chunk's computed size was
within bounds. -/
theorem popSeries_ok_sizes {encSize : Int → Nat} {iv : Int} :
    ∀ {starts : List Int} {st : Nat × Nat} {p},
      popSeries encSize iv starts st = .ok p →
      ∀ cs ∈ starts, encSize cs + chunkOverheadSize ≤ maxChunkSize := by
  intro starts
  induction starts with
  | nil => intro st p h cs hcs; simp at hcs
  | cons c rest ih =>
    intro st p h cs hcs
    rw [popSeries] at h
    split at h
    · exact absurd h (by simp)
    · rename_i hfit
      rcases List.mem_cons.mp hcs with rfl | hcs'
      · omega
      · cases hrec : popSeries encSize iv rest (allocStep st (encSize c + chunkOverheadSize)).1 with
        | error e => rw [hrec] at h; exact absurd h (by simp)
        | ok q => exact ih hrec cs hcs'

/-- `popSeries` either succeeds or aborts with the sizing error. -/
theorem popSeries_ok_or_error {encSize : Int → Nat} {iv : Int} :
    ∀ (starts : List Int) (st : Nat × Nat),
      (∃ p, popSeries encSize iv starts st = .ok p) ∨
        popSeries encSize iv starts st = .error "chunk too big" := by
  intro starts
  induction starts with
  | nil => intro st; exact Or.inl ⟨([], st), rfl⟩
  | cons c rest ih =>
    intro st
    rw [popSeries]
    split
    · exact Or.inr rfl
    · rcases ih (allocStep st (encSize c + chunkOverheadSize)).1 with ⟨⟨ms, stF⟩, hp⟩ | hp
      · rw [hp]; exact Or.inl ⟨_, rfl⟩
      · rw [hp]; exact Or.inr rfl

/-- A successful series loop implies each series' own chunk loop
succeeded from some allocator state. -/
theorem popAllSeries_ok_each {iv bs be : Int} :
    ∀ {fs : List (Int → Nat)} {st : Nat × Nat} {p},
      popAllSeries iv bs be fs st = .ok p →
      ∀ f ∈ fs, ∃ st' p',
        popSeries f iv (gridStarts bs be (iv * (samplesPerChunk : Int))) st'
          = .ok p' := by
  intro fs
  induction fs with
  | nil => intro st p h f hf; simp at hf
  | cons g gs ih =>
    intro st p h f hf
    rw [popAllSeries] at h
    cases hg : popSeries g iv (gridStarts bs be (iv * (samplesPerChunk : Int))) st with
    | error e => rw [hg] at h; exact absurd h (by simp)
    | ok q =>
      obtain ⟨ms, st'⟩ := q
      simp only [hg] at h
      rcases List.mem_cons.mp hf with rfl | hf'
      · exact ⟨st, (ms, st'), hg⟩
      · cases hrest : popAllSeries iv bs be gs st' with
        | error e => simp only [hrest] at h; exact absurd h (by simp)
        | ok q' => exact ih hrest f hf'

/-- The series loop either succeeds or aborts with the sizing error. -/
theorem popAllSeries_ok_or_error {iv bs be : Int} :
    ∀ (fs : List (Int → Nat)) (st : Nat × Nat),
      (∃ p, popAllSeries iv bs be fs st = .ok p) ∨
        popAllSeries iv bs be fs st = .error "chunk too big" := by
  intro fs
  induction fs with
  | nil => intro st; exact Or.inl ⟨([], st), rfl⟩
  | cons g gs ih =>
    intro st
    rw [popAllSeries]
    rcases @popSeries_ok_or_error g iv
        (gridStarts bs be (iv * (samplesPerChunk : Int))) st with ⟨⟨ms, st'⟩, hg⟩ | hg
    · rcases ih st' with ⟨⟨mss, stF⟩, hrest⟩ | hrest
      · simp [hg, hrest]
      · simp [hg, hrest]
    · simp [hg]

/-- C6: whenever some chunk's computed size (encoded bytes plus the
fixed per-chunk overhead) exceeds the maximum chunk size, chunk building
returns the fatal sizing error: `populateChunks` aborts with an error
and emits no output at all, so the oversized chunk is never assigned a
reference nor appended to its series. -/
theorem C6_sizing_error (encSizes : List (Int → Nat)) (bs be iv : Int)
    (h : ∃ f ∈ encSizes, ∃ cs ∈ gridStarts bs be (iv * (samplesPerChunk : Int)),
        maxChunkSize < f cs + chunkOverheadSize) :
    populateChunks encSizes bs be iv = .error "chunk too big" := by
  obtain ⟨f, hf, cs, hcs, hbig⟩ := h
  rw [populateChunks]
  rcases @popAllSeries_ok_or_error iv bs be encSizes
      (segmentStartOffset, 0) with ⟨p, hp⟩ | hp
  · obtain ⟨st', p', hser⟩ := popAllSeries_ok_each hp f hf
    have := popSeries_ok_sizes hser cs hcs
    omega
  · simp [hp]

/-- Witness for C6: a single series whose encoded chunk payload of
20000 bytes exceeds the 16KiB chunk limit. -/
theorem C6_sizing_error_witness :
    (∃ f ∈ ([fun _ => 20000] : List (Int → Nat)),
      ∃ cs ∈ gridStarts 0 1 (1 * (samplesPerChunk : Int)),
        maxChunkSize < f cs + chunkOverheadSize) ∧
    populateChunks ([fun _ => 20000] : List (Int → Nat)) 0 1 1
      = .error "chunk too big" := by
  have hgrid : gridStarts 0 1 ((1 : Int) * (samplesPerChunk : Int)) = [0] := by
    rw [gridStarts_pos (by norm_num [samplesPerChunk]) (by norm_num),
      gridStarts_neg (by norm_num [samplesPerChunk])]
  have hex : ∃ f ∈ ([fun _ => 20000] : List (Int → Nat)),
      ∃ cs ∈ gridStarts 0 1 (1 * (samplesPerChunk : Int)),
        maxChunkSize < f cs + chunkOverheadSize := by
    refine ⟨_, List.mem_singleton_self _, 0, ?_, by norm_num [maxChunkSize, chunkOverheadSize]⟩
    rw [hgrid]; exact List.mem_singleton_self _
  exact ⟨hex, C6_sizing_error _ 0 1 1 hex⟩

/-- Shifting a time by a whole number of seconds shifts `Unix() * 1000`
by exactly that many thousand milliseconds. -/
theorem unixMs_add_sec (a m : Int) :
    unixMs (a + m * 1000000000) = unixMs a + 1000 * m := by
  unfold unixMs unixSec
  rw [Int.add_mul_ediv_right _ _ (by norm_num : (1000000000 : Int) ≠ 0)]
  ring

theorem unixMs_mono {a b : Int} (h : a ≤ b) : unixMs a ≤ unixMs b := by
  unfold unixMs unixSec
  have := Int.ediv_le_ediv (by norm_num : (0 : Int) < 1000000000) h
  omega

theorem ivMs_whole_sec (q : Int) :
    ivMs (1000000000 * q) = 1000 * q := by
  unfold ivMs
  rw [show (1000000000 : Int) * q = 1000000 * (1000 * q) from by ring]
  exact Int.mul_tdiv_cancel_left _ (by norm_num)

/-- C4 (amended): for a sample interval that is a positive whole number
of seconds, every sample timestamp `t` encoded into the chunk starting
at `cs` satisfies `minTime ≤ t < minTime + chunkLength` (with `minTime`
the chunk's recorded start and `chunkLength` the interval times the
samples-per-chunk capacity, both in milliseconds), and the timestamps
are strictly increasing; the samples are taken at every interval tick
strictly before the chunk window's end.  For sub-second intervals the
upper bound and strictness can fail, because timestamps are truncated to
whole seconds (see the counterexample). -/
theorem C4_sample_bounds (cs iv q : Int) (hiv : iv = 1000000000 * q)
    (hq : 0 < q) :
    (∀ t ∈ sampleTimes cs iv,
      unixMs cs ≤ t ∧ t < unixMs cs + ivMs iv * (samplesPerChunk : Int)) ∧
    (sampleTimes cs iv).Pairwise (· < ·) := by
  subst hiv
  have hstep : (0 : Int) < 1000000000 * q := by positivity
  have hms : ivMs (1000000000 * q) = 1000 * q := ivMs_whole_sec q
  constructor
  · intro t ht
    obtain ⟨s, hs, rfl⟩ := List.mem_map.mp ht
    obtain ⟨k, rfl, hlt⟩ := (mem_gridStarts hstep).mp hs
    have hk : (k : Int) < (samplesPerChunk : Int) := by
      by_contra hk'
      push_neg at hk'
      have hge : (samplesPerChunk : Int) * (1000000000 * q)
          ≤ (k : Int) * (1000000000 * q) :=
        mul_le_mul_of_nonneg_right hk' (le_of_lt hstep)
      have hcomm : 1000000000 * q * (samplesPerChunk : Int)
          = (samplesPerChunk : Int) * (1000000000 * q) := by ring
      omega
    have heq : unixMs (cs + (k : Int) * (1000000000 * q))
        = unixMs cs + 1000 * ((k : Int) * q) := by
      rw [show cs + (k : Int) * (1000000000 * q) = cs + ((k : Int) * q) * 1000000000 from by ring]
      exact unixMs_add_sec cs _
    rw [heq, hms]
    have hkq : (k : Int) * q ≤ 119 * q := by
      apply mul_le_mul_of_nonneg_right _ (le_of_lt hq)
      have : (k : Int) < 120 := by simpa [samplesPerChunk] using hk
      omega
    have hk0 : (0 : Int) ≤ (k : Int) * q := mul_nonneg (by positivity) (le_of_lt hq)
    constructor
    · omega
    · simp only [samplesPerChunk]
      push_cast
      omega
  · rw [sampleTimes]
    refine List.Pairwise.map _ ?_ (gridStarts_pairwise hstep)
    intro a b hab
    have h1 : unixMs (a + 1000000000 * q) ≤ unixMs b := by
      apply unixMs_mono; omega
    have h2 : unixMs (a + 1000000000 * q) = unixMs a + 1000 * q := by
      rw [show a + 1000000000 * q = a + q * 1000000000 from by ring]
      exact unixMs_add_sec a q
    omega

/-- Counterexample to C4 as stated: with a 5ms sample interval and a
chunk starting 0.9s after the epoch, the sample taken at 1.0s is
recorded with timestamp 1000 (truncated to whole seconds), which is not
below `minTime + chunkLength = 0 + 600`. -/
theorem C4_sample_bounds_cex :
    (1000 : Int) ∈ sampleTimes 900000000 5000000 ∧
    ¬((1000 : Int) < unixMs 900000000 + ivMs 5000000 * (samplesPerChunk : Int)) := by
  constructor
  · rw [sampleTimes]
    refine List.mem_map.mpr ⟨1000000000, ?_, by decide⟩
    rw [mem_gridStarts (by norm_num)]
    exact ⟨20, by decide, by decide⟩
  · decide

/-- Witness for C4 at a 1-second interval and epoch-start chunk. -/
theorem C4_sample_bounds_witness :
    (1000000000 : Int) = 1000000000 * 1 ∧ (0 : Int) < 1 ∧
    ((∀ t ∈ sampleTimes 0 1000000000,
        unixMs 0 ≤ t ∧ t < unixMs 0 + ivMs 1000000000 * (samplesPerChunk : Int)) ∧
      (sampleTimes 0 1000000000).Pairwise (· < ·)) :=
  ⟨by norm_num, by norm_num,
    C4_sample_bounds 0 1000000000 1 (by norm_num) (by norm_num)⟩

/-- A successful per-series run records exactly one metadata record per
chunk window, with `MinTime` the (second-truncated) chunk start in
milliseconds and `MaxTime` exactly one sample interval later. -/
theorem popSeries_times {encSize : Int → Nat} {iv : Int} :
    ∀ {starts : List Int} {st : Nat × Nat} {ms : List ChunkMetaR}
      {stF : Nat × Nat},
      popSeries encSize iv starts st = .ok (ms, stF) →
      ms.map (fun m => (m.minTime, m.maxTime))
        = starts.map (fun cs => (unixMs cs, unixMs cs + ivMs iv)) := by
  intro starts
  induction starts with
  | nil =>
    intro st ms stF h
    rw [popSeries] at h
    simp only [Except.ok.injEq, Prod.mk.injEq] at h
    rw [← h.1]
    simp
  | cons c rest ih =>
    intro st ms stF h
    rw [popSeries] at h
    split at h
    · exact absurd h (by simp)
    · cases hrec : popSeries encSize iv rest
          (allocStep st (encSize c + chunkOverheadSize)).1 with
      | error e => rw [hrec] at h; exact absurd h (by simp)
      | ok q =>
        obtain ⟨ms', stF'⟩ := q
        simp only [hrec, Except.ok.injEq, Prod.mk.injEq] at h
        rw [← h.1]
        simp only [List.map_cons]
        rw [ih hrec]

/-- C2 (amended): for a sample interval that is a positive whole number
of seconds, the chunk records of a series are appended in strictly
increasing time order with pairwise disjoint recorded windows; the
recorded `MinTime`s are precisely the chunk-loop start times (truncated
to whole seconds, in milliseconds) beginning at the block start, and
each record's `MaxTime` is `MinTime` plus one sample interval — not one
chunk length — so the recorded windows do not cover the block window
(see the counterexample); the underlying half-open chunk windows
`[cs, cs + chunkLength)` do cover the whole block window `[bs, be)`,
with only the last window extending past `be` (the final chunk is never
made shorter). -/
theorem C2_chunk_windows (encSize : Int → Nat) (iv q bs be : Int)
    (st : Nat × Nat) (ms : List ChunkMetaR) (stF : Nat × Nat)
    (hiv : iv = 1000000000 * q) (hq : 0 < q) (hbe : bs < be)
    (h : popSeries encSize iv (gridStarts bs be (iv * (samplesPerChunk : Int))) st
      = .ok (ms, stF)) :
    ms.map (fun m => m.minTime)
      = (gridStarts bs be (iv * (samplesPerChunk : Int))).map unixMs ∧
    (∀ m ∈ ms, m.maxTime = m.minTime + 1000 * q) ∧
    ms.Pairwise (fun a b => a.maxTime < b.minTime) ∧
    (gridStarts bs be (iv * (samplesPerChunk : Int))).head? = some bs ∧
    (∀ t, bs ≤ t → t < be →
      ∃ cs ∈ gridStarts bs be (iv * (samplesPerChunk : Int)),
        cs ≤ t ∧ t < cs + iv * (samplesPerChunk : Int)) ∧
    (∀ cs ∈ gridStarts bs be (iv * (samplesPerChunk : Int)), cs < be) := by
  have hstep : (0 : Int) < iv * (samplesPerChunk : Int) := by
    rw [hiv]
    have h120 : (0 : Int) < (samplesPerChunk : Int) := by norm_num [samplesPerChunk]
    exact mul_pos (mul_pos (by norm_num) hq) h120
  have hms : ivMs iv = 1000 * q := by rw [hiv]; exact ivMs_whole_sec q
  have ht := popSeries_times h
  refine ⟨?_, ?_, ?_, gridStarts_head (by omega) hbe, ?_, ?_⟩
  · have := congrArg (List.map Prod.fst) ht
    simpa [List.map_map, Function.comp] using this
  · intro m hm
    have hmem : (m.minTime, m.maxTime)
        ∈ (gridStarts bs be (iv * (samplesPerChunk : Int))).map
            (fun cs => (unixMs cs, unixMs cs + ivMs iv)) := by
      rw [← ht]
      exact List.mem_map_of_mem _ hm
    obtain ⟨cs, -, hcs⟩ := List.mem_map.mp hmem
    have h1 : unixMs cs = m.minTime := congrArg Prod.fst hcs
    have h2 : unixMs cs + ivMs iv = m.maxTime := congrArg Prod.snd hcs
    rw [← h2, ← h1, hms]
  · have hpairs : ((gridStarts bs be (iv * (samplesPerChunk : Int))).map
        (fun cs => (unixMs cs, unixMs cs + ivMs iv))).Pairwise
          (fun p1 p2 => p1.2 < p2.1) := by
      refine List.Pairwise.map _ ?_ (gridStarts_pairwise hstep)
      intro a b hab
      have hmono : unixMs (a + iv * (samplesPerChunk : Int)) ≤ unixMs b :=
        unixMs_mono hab
      have heq : unixMs (a + iv * (samplesPerChunk : Int))
          = unixMs a + 1000 * (q * (samplesPerChunk : Int)) := by
        rw [hiv, show a + 1000000000 * q * (samplesPerChunk : Int)
          = a + q * (samplesPerChunk : Int) * 1000000000 from by ring]
        exact unixMs_add_sec a _
      have h2q : q * 2 ≤ q * (samplesPerChunk : Int) :=
        mul_le_mul_of_nonneg_left (by norm_num [samplesPerChunk]) (le_of_lt hq)
      simp only [hms]
      omega
    rw [← ht] at hpairs
    exact (List.pairwise_map).mp hpairs
  · intro t ht1 ht2
    exact gridStarts_cover hstep ht1 ht2
  · intro cs hcs
    exact gridStarts_lt_stop hstep hcs

/-- Counterexample to C2 as stated: one 1-second-interval chunk spanning
the whole block `[0, 120s)` is recorded with window
`[MinTime, MaxTime] = [0, 1000]` (one sample interval, not one chunk
length), so the union of the recorded chunk windows misses the in-block
instant `t = 5s` entirely: the union does not equal the block window. -/
theorem C2_chunk_windows_cex :
    popSeries (fun _ => 0) 1000000000
        (gridStarts 0 120000000000 (1000000000 * (samplesPerChunk : Int)))
        (segmentStartOffset, 0)
      = .ok ([⟨0, 1000, 8⟩], (15, 0)) ∧
    (0 : Int) ≤ 5000000000 ∧ (5000000000 : Int) < 120000000000 ∧
    (∀ m ∈ ([⟨0, 1000, 8⟩] : List ChunkMetaR),
      ¬(m.minTime ≤ unixMs 5000000000 ∧ unixMs 5000000000 ≤ m.maxTime)) := by
  have hgrid : gridStarts 0 120000000000
      ((1000000000 : Int) * (samplesPerChunk : Int)) = [0] := by
    rw [gridStarts_pos (by norm_num [samplesPerChunk]) (by norm_num),
      gridStarts_neg (by norm_num [samplesPerChunk])]
  refine ⟨?_, by norm_num, by norm_num, ?_⟩
  · rw [hgrid]; rfl
  · intro m hm
    rcases List.mem_singleton.mp hm with rfl
    decide

/-- Witness for C2 at the same concrete one-chunk block. -/
theorem C2_chunk_windows_witness :
    (1000000000 : Int) = 1000000000 * 1 ∧ (0 : Int) < 1 ∧
    (0 : Int) < 120000000000 ∧
    popSeries (fun _ => 0) 1000000000
        (gridStarts 0 120000000000 (1000000000 * (samplesPerChunk : Int)))
        (segmentStartOffset, 0)
      = .ok ([⟨0, 1000, 8⟩], (15, 0)) ∧
    (([⟨0, 1000, 8⟩] : List ChunkMetaR).map (fun m => m.minTime)
        = (gridStarts 0 120000000000 (1000000000 * (samplesPerChunk : Int))).map
            unixMs ∧
      (∀ m ∈ ([⟨0, 1000, 8⟩] : List ChunkMetaR),
        m.maxTime = m.minTime + 1000 * 1) ∧
      ([⟨0, 1000, 8⟩] : List ChunkMetaR).Pairwise
        (fun a b => a.maxTime < b.minTime) ∧
      (gridStarts 0 120000000000
          (1000000000 * (samplesPerChunk : Int))).head? = some 0 ∧
      (∀ t, (0 : Int) ≤ t → t < 120000000000 →
        ∃ cs ∈ gridStarts 0 120000000000 (1000000000 * (samplesPerChunk : Int)),
          cs ≤ t ∧ t < cs + 1000000000 * (samplesPerChunk : Int)) ∧
      (∀ cs ∈ gridStarts 0 120000000000
          (1000000000 * (samplesPerChunk : Int)), cs < 120000000000)) := by
  have hgrid : gridStarts 0 120000000000
      ((1000000000 : Int) * (samplesPerChunk : Int)) = [0] := by
    rw [gridStarts_pos (by norm_num [samplesPerChunk]) (by norm_num),
      gridStarts_neg (by norm_num [samplesPerChunk])]
  have hpop : popSeries (fun _ => 0) 1000000000
      (gridStarts 0 120000000000 (1000000000 * (samplesPerChunk : Int)))
      (segmentStartOffset, 0) = .ok ([⟨0, 1000, 8⟩], (15, 0)) := by
    rw [hgrid]; rfl
  exact ⟨by norm_num, by norm_num, by norm_num, hpop,
    C2_chunk_windows (fun _ => 0) 1000000000 1 0 120000000000
      (segmentStartOffset, 0) [⟨0, 1000, 8⟩] (15, 0)
      (by norm_num) (by norm_num) (by norm_num) hpop⟩

/-! ## The index builder (`createIndex`)

The index writer and the postings container (`index.Writer`,
`index.MemPostings`) are external `prometheus/tsdb` collaborators; their
contracts (postings keys are the distinct label pairs, sorted by name
then value; an ordered postings container returns ids in the order they
were added) are modelled here from the spec, while the loops feeding
them (`createIndex`, lines 221–272) are modelled from the source. -/

/-- A label: a name/value pair attached to a series. -/
structure Label where
  name : String
  value : String
deriving Repr, DecidableEq

/-- The `labelValues` map of `createIndex` (lines 227–232): for each
generator in input order, and each of its labels in order, append the
label's value to the entry for the label's name.  The map is modelled
as a function from names to value lists; absent names map to `[]`. -/
def labelValuesMap (gens : List (List Label)) : String → List String :=
  gens.foldl
    (fun m g =>
      g.foldl
        (fun m l n => if n = l.name then m n ++ [l.value] else m n) m)
    (fun _ => [])

/-- Characterisation of `labelValuesMap`: the entry for `n` lists the
values of all labels named `n`, in generator-then-label order, with
duplicates preserved and no sorting. -/
theorem labelValuesMap_eq (gens : List (List Label)) (n : String) :
    labelValuesMap gens n
      = ((gens.flatMap id).filter (fun l => l.name = n)).map
          (fun l => l.value) := by
  suffices hgen : ∀ (gs : List (List Label)) (m : String → List String),
      (gs.foldl
        (fun m g => g.foldl
          (fun m l n => if n = l.name then m n ++ [l.value] else m n) m) m) n
        = m n ++ ((gs.flatMap id).filter (fun l => l.name = n)).map
            (fun l => l.value) by
    simpa using hgen gens (fun _ => [])
  intro gs
  induction gs with
  | nil => intro m; simp
  | cons g rest ihrest =>
    intro m
    rw [List.foldl_cons, ihrest]
    suffices hlab : ∀ (ls : List Label) (m : String → List String),
        (ls.foldl
          (fun m l n => if n = l.name then m n ++ [l.value] else m n) m) n
          = m n ++ (ls.filter (fun l => l.name = n)).map (fun l => l.value) by
      rw [hlab g m]
      simp [List.filter_append, List.append_assoc]
    intro ls
    induction ls with
    | nil => intro m; simp
    | cons l rest2 ihl =>
      intro m
      rw [List.foldl_cons, ihl]
      by_cases hn : l.name = n
      · rw [List.filter_cons_of_pos (by simp [hn])]
        simp [hn.symm, List.append_assoc]
      · rw [List.filter_cons_of_neg (by simp [hn])]
        have hn' : ¬n = l.name := fun h => hn h.symm
        simp [hn']

/-- Series ids as assigned by `createEmptyTimeseries`: sequential,
0-based, in generator input order.  `createIndex` adds each series to
the postings container keyed by its id in that order (lines 253–257).
Modelled from the spec: the external ordered postings container
(`index.MemPostings`) returns, for a label pair, exactly the ids that
were added carrying that pair, in addition order. -/
def postingsAux (l : Label) : List (List Label) → Nat → List Nat
  | [], _ => []
  | g :: gs, i =>
    if l ∈ g then i :: postingsAux l gs (i + 1) else postingsAux l gs (i + 1)

/-- The postings list written for the pair `l`: ids of the series whose
label set contains `l`, starting from id 0. -/
def postingsList (gens : List (List Label)) (l : Label) : List Nat :=
  postingsAux l gens 0

theorem mem_postingsAux {l : Label} :
    ∀ (gs : List (List Label)) (i j : Nat),
      j ∈ postingsAux l gs i ↔
        i ≤ j ∧ ∃ g', gs[j - i]? = some g' ∧ l ∈ g' := by
  intro gs
  induction gs with
  | nil => intro i j; simp [postingsAux]
  | cons g rest ih =>
    intro i j
    rw [postingsAux]
    by_cases hmem : l ∈ g
    · rw [if_pos hmem]
      constructor
      · intro hj
        rcases List.mem_cons.mp hj with rfl | hj'
        · exact ⟨le_refl _, g, by simp, hmem⟩
        · obtain ⟨h1, g', h2, h3⟩ := (ih (i + 1) j).mp hj'
          refine ⟨by omega, g', ?_, h3⟩
          rw [show j - i = (j - (i + 1)) + 1 from by omega]
          simpa using h2
      · rintro ⟨hij, g', hg', hlg'⟩
        rcases Nat.eq_or_lt_of_le hij with rfl | hlt
        · exact List.mem_cons_self _ _
        · refine List.mem_cons_of_mem _ ((ih (i + 1) j).mpr ⟨by omega, g', ?_, hlg'⟩)
          rw [show j - i = (j - (i + 1)) + 1 from by omega] at hg'
          simpa using hg'
    · rw [if_neg hmem]
      rw [ih (i + 1) j]
      constructor
      · rintro ⟨h1, g', h2, h3⟩
        refine ⟨by omega, g', ?_, h3⟩
        rw [show j - i = (j - (i + 1)) + 1 from by omega]
        simpa using h2
      · rintro ⟨hij, g', hg', hlg'⟩
        rcases Nat.eq_or_lt_of_le hij with rfl | hlt
        · simp only [Nat.sub_self, List.getElem?_cons_zero, Option.some.injEq] at hg'
          exact absurd (hg' ▸ hlg') hmem
        · refine ⟨by omega, g', ?_, hlg'⟩
          rw [show j - i = (j - (i + 1)) + 1 from by omega] at hg'
          simpa using hg'

theorem postingsAux_lb {l : Label} :
    ∀ (gs : List (List Label)) (i : Nat), ∀ j ∈ postingsAux l gs i, i ≤ j := by
  intro gs i j hj
  exact ((mem_postingsAux gs i j).mp hj).1

theorem postingsAux_pairwise {l : Label} :
    ∀ (gs : List (List Label)) (i : Nat),
      (postingsAux l gs i).Pairwise (· < ·) := by
  intro gs
  induction gs with
  | nil => intro i; simp [postingsAux]
  | cons g rest ih =>
    intro i
    rw [postingsAux]
    by_cases hmem : l ∈ g
    · rw [if_pos hmem]
      refine List.pairwise_cons.mpr ⟨fun j hj => ?_, ih (i + 1)⟩
      have := postingsAux_lb rest (i + 1) j hj
      omega
    · rw [if_neg hmem]; exact ih (i + 1)

/-- Lexicographic (name first, then value) order on label pairs: the
traversal order of the postings keys. -/
def labelLe (a b : Label) : Prop :=
  a.name < b.name ∨ (a.name = b.name ∧ a.value ≤ b.value)

/-- Strict lexicographic order on label pairs. -/
def labelLt (a b : Label) : Prop :=
  a.name < b.name ∨ (a.name = b.name ∧ a.value < b.value)

instance : DecidableRel labelLe := fun a b => by unfold labelLe; infer_instance

instance : DecidableRel labelLt := fun a b => by unfold labelLt; infer_instance

instance : IsTotal Label labelLe where
  total a b := by
    unfold labelLe
    rcases lt_trichotomy a.name b.name with h | h | h
    · exact Or.inl (Or.inl h)
    · rcases le_total a.value b.value with hv | hv
      · exact Or.inl (Or.inr ⟨h, hv⟩)
      · exact Or.inr (Or.inr ⟨h.symm, hv⟩)
    · exact Or.inr (Or.inl h)

instance : IsTrans Label labelLe where
  trans a b c hab hbc := by
    unfold labelLe at hab hbc ⊢
    rcases hab with h1 | ⟨h1, h1'⟩ <;> rcases hbc with h2 | ⟨h2, h2'⟩
    · exact Or.inl (lt_trans h1 h2)
    · exact Or.inl (h2 ▸ h1)
    · exact Or.inl (h1 ▸ h2)
    · exact Or.inr ⟨h1.trans h2, le_trans h1' h2'⟩

/-- Modelled from the spec: `MemPostings.SortedKeys` returns the
distinct label pairs present across all registered series, sorted
lexically by name then value; `createIndex` submits `WritePostings`
calls in exactly this order (lines 260–264). -/
def sortedPairs (gens : List (List Label)) : List Label :=
  List.insertionSort labelLe (gens.flatMap id).dedup

theorem labelLt_of_le_ne {a b : Label} (hle : labelLe a b) (hne : a ≠ b) :
    labelLt a b := by
  rcases hle with h | ⟨h1, h2⟩
  · exact Or.inl h
  · refine Or.inr ⟨h1, lt_of_le_of_ne h2 ?_⟩
    intro hv
    exact hne (by cases a; cases b; simp_all)

theorem sortedPairs_pairwise (gens : List (List Label)) :
    (sortedPairs gens).Pairwise labelLt := by
  have hsorted : List.Sorted labelLe (sortedPairs gens) :=
    List.sorted_insertionSort _ _
  have hnodup : (sortedPairs gens).Nodup :=
    ((List.perm_insertionSort labelLe _).nodup_iff).mpr (List.nodup_dedup _)
  exact (hsorted.and hnodup).imp fun hab => labelLt_of_le_ne hab.1 hab.2

theorem mem_sortedPairs {gens : List (List Label)} {l : Label} :
    l ∈ sortedPairs gens ↔ ∃ g ∈ gens, l ∈ g := by
  rw [sortedPairs, (List.perm_insertionSort labelLe _).mem_iff,
    List.mem_dedup, List.mem_flatMap]
  simp

/-- Summary of the values `createIndex` hands to the external index
writer for one block.  A Go map's iteration order is unspecified, so the
label-index submissions are recorded as the map itself rather than as a
call sequence; the postings submissions are recorded in call order. -/
structure IndexOut where
  seriesIds : List Nat
  labelValues : String → List String
  postings : List (Label × List Nat)

/-- The index construction of `createIndex` (lines 221–272): build the
label-values map over all generators, register one series per id in
input order, and write postings for every sorted key. -/
def createIndexOut (gens : List (List Label)) : IndexOut :=
  { seriesIds := List.range gens.length
    labelValues := labelValuesMap gens
    postings := (sortedPairs gens).map fun l => (l, postingsList gens l) }

/-- C5: for every label pair `l` appearing in some series, the postings
list written for `l` is exactly the ascending-sorted, duplicate-free set
of ids of the series carrying `l`, and the `(name, value)` pairs are
submitted to the index writer in strict lexical order, name first, then
value. -/
theorem C5_postings (gens : List (List Label)) (l : Label)
    (hl : ∃ g ∈ gens, l ∈ g) :
    (createIndexOut gens).postings
        = (sortedPairs gens).map (fun p => (p, postingsList gens p)) ∧
    (l, postingsList gens l) ∈ (createIndexOut gens).postings ∧
    (postingsList gens l).Pairwise (· < ·) ∧
    (∀ i : Nat, i ∈ postingsList gens l ↔ ∃ g', gens[i]? = some g' ∧ l ∈ g') ∧
    (sortedPairs gens).Pairwise labelLt := by
  refine ⟨rfl, ?_, postingsAux_pairwise gens 0, ?_, sortedPairs_pairwise gens⟩
  · exact List.mem_map_of_mem _ (mem_sortedPairs.mpr hl)
  · intro i
    rw [postingsList, mem_postingsAux gens 0 i]
    simp

/-- Witness for C5 on three series over two label pairs. -/
theorem C5_postings_witness :
    (∃ g ∈ ([[⟨"a", "x"⟩], [⟨"b", "y"⟩], [⟨"a", "x"⟩]] : List (List Label)),
      (⟨"a", "x"⟩ : Label) ∈ g) ∧
    ((createIndexOut [[⟨"a", "x"⟩], [⟨"b", "y"⟩], [⟨"a", "x"⟩]]).postings
        = (sortedPairs [[⟨"a", "x"⟩], [⟨"b", "y"⟩], [⟨"a", "x"⟩]]).map
            (fun p => (p, postingsList [[⟨"a", "x"⟩], [⟨"b", "y"⟩], [⟨"a", "x"⟩]] p)) ∧
      (⟨"a", "x"⟩,
          postingsList [[⟨"a", "x"⟩], [⟨"b", "y"⟩], [⟨"a", "x"⟩]] ⟨"a", "x"⟩)
        ∈ (createIndexOut [[⟨"a", "x"⟩], [⟨"b", "y"⟩], [⟨"a", "x"⟩]]).postings ∧
      (postingsList [[⟨"a", "x"⟩], [⟨"b", "y"⟩], [⟨"a", "x"⟩]]
          ⟨"a", "x"⟩).Pairwise (· < ·) ∧
      (∀ i : Nat,
        i ∈ postingsList [[⟨"a", "x"⟩], [⟨"b", "y"⟩], [⟨"a", "x"⟩]] ⟨"a", "x"⟩
          ↔ ∃ g', ([[⟨"a", "x"⟩], [⟨"b", "y"⟩], [⟨"a", "x"⟩]]
              : List (List Label))[i]? = some g' ∧ (⟨"a", "x"⟩ : Label) ∈ g') ∧
      (sortedPairs [[⟨"a", "x"⟩], [⟨"b", "y"⟩], [⟨"a", "x"⟩]]).Pairwise labelLt) :=
  ⟨by decide, C5_postings [[⟨"a", "x"⟩], [⟨"b", "y"⟩], [⟨"a", "x"⟩]]
    ⟨"a", "x"⟩ (by decide)⟩

/-- C8 (amended): for each label name occurring in any series, the index
builder submits the list of all values observed for that name in
generator traversal order — duplicates preserved and no sorting applied
by this code (the external index writer sorts what it receives). -/
theorem C8_label_index (gens : List (List Label)) (n : String) :
    (createIndexOut gens).labelValues n
      = ((gens.flatMap id).filter (fun l => l.name = n)).map
          (fun l => l.value) :=
  labelValuesMap_eq gens n

/-- Counterexample to C8 as stated: two series with the same `a = x`
label make `labelValues "a"` the list `["x", "x"]`, which is not
duplicate-free, so the submitted value list is not the sorted set of
distinct values. -/
theorem C8_label_index_cex :
    (createIndexOut [[⟨"a", "x"⟩], [⟨"a", "x"⟩]]).labelValues "a"
        = ["x", "x"] ∧
    ¬(["x", "x"] : List String).Nodup := by
  exact ⟨by decide, by decide⟩

/-! ## Block construction (`createBlock`, `CreateThanosTSDB`) -/

/-- A series generator: its metric name, its full label set (the
constructor of the increasing generator appends the synthetic
`__name__` label), and the abstracted encoded-chunk-size function
standing for the external XOR codec applied to the generator's
values. -/
structure Generator where
  name : String
  labels : List Label
  encSize : Int → Nat

/-- The fields of the `meta.json` descriptor written by `createBlock`
(template at lines 34–50, instantiated at lines 126–131). -/
structure BlockMeta where
  version : Nat
  ulid : String
  minTime : Int
  maxTime : Int
  numSamples : Int
  numSeries : Nat
  numChunks : Int
  compactionLevel : Nat
  compactionSources : List String
deriving Repr, DecidableEq

/-- The per-block output: the metadata descriptor and each series' chunk
metadata (the index writes are described by `createIndexOut` on the
generators' label sets). -/
structure BlockOut where
  meta : BlockMeta
  series : List (List ChunkMetaR)
deriving Repr, DecidableEq

/-- `createBlock` for the window `[bs, be)`: populate the chunks, then
write the descriptor.  `id` stands for the block ULID freshly drawn
from the shared random source.  `numChunks` is
`len(timeseries) * (blockDuration / (sampleInterval*samplesPerChunk))`
with Go `int64` (truncated) division, and `numSamples` is
`numChunks * samplesPerChunk`. -/
def createBlock (gens : List Generator) (iv bs be : Int) (id : String) :
    Except String BlockOut :=
  match populateChunks (gens.map fun g => g.encSize) bs be iv with
  | .error e => .error e
  | .ok sers =>
    .ok
      { meta :=
          { version := 1
            ulid := id
            minTime := unixMs bs
            maxTime := unixMs be
            numSamples :=
              (gens.length : Int)
                  * ((be - bs).tdiv (iv * (samplesPerChunk : Int)))
                * (samplesPerChunk : Int)
            numSeries := gens.length
            numChunks :=
              (gens.length : Int)
                * ((be - bs).tdiv (iv * (samplesPerChunk : Int)))
            compactionLevel := 1
            compactionSources := [id] }
        series := sers }

/-- Defaulting of a zero duration (`if opts.X == 0 { opts.X = d }`):
only an exactly-zero duration is replaced; negative durations pass
through unchecked. -/
def defaultDur (d dft : Int) : Int := if d = 0 then dft else d

/-- Configuration options (`Opts`): `none` for the start or end time
models Go's zero `time.Time` (`IsZero`); a zero duration models an
unset `time.Duration`. -/
structure OptsM where
  timeseries : List Generator
  startTime : Option Int
  endTime : Option Int
  sampleInterval : Int
  blockLength : Int

/-- Sequential fallible map, stopping at the first error, as the block
loop of `CreateThanosTSDB` does. -/
def mapExcept (f : α → Except ε β) : List α → Except ε (List β)
  | [] => .ok []
  | a :: as =>
    match f a with
    | .error e => .error e
    | .ok b =>
      match mapExcept f as with
      | .error e => .error e
      | .ok bs => .ok (b :: bs)

theorem mapExcept_length {f : α → Except ε β} :
    ∀ {l : List α} {out : List β},
      mapExcept f l = .ok out → out.length = l.length := by
  intro l
  induction l with
  | nil =>
    intro out h
    rw [mapExcept] at h
    simp only [Except.ok.injEq] at h
    rw [← h]
    rfl
  | cons a as ih =>
    intro out h
    rw [mapExcept] at h
    cases hf : f a with
    | error e => rw [hf] at h; exact absurd h (by simp)
    | ok b =>
      cases hrest : mapExcept f as with
      | error e => simp only [hf, hrest] at h; exact absurd h (by simp)
      | ok bs =>
        simp only [hf, hrest, Except.ok.injEq] at h
        rw [← h]
        simp [ih hrest]

/-- `CreateThanosTSDB`: default the timestamps (start: a week before
now; end: now), fail if the start is strictly after the end, default the
durations, then build one block per window `[w, w + blockLength)` for
the loop `for blockStart := startTime; blockStart < endTime;
blockStart += blockLength`.  `ids` stands for ULID generation, seeded
from each block's end time. -/
def createThanosTSDB (now : Int) (ids : Int → String) (o : OptsM) :
    Except String (List BlockOut) :=
  let start := o.startTime.getD (now - 604800000000000)
  let stop := o.endTime.getD now
  if stop < start then .error "end time cannot come after start time"
  else
    let iv := defaultDur o.sampleInterval 15000000000
    let bl := defaultDur o.blockLength 7200000000000
    mapExcept
      (fun bs => createBlock o.timeseries iv bs (bs + bl) (ids (bs + bl)))
      (gridStarts start stop bl)

/-- For second-aligned instants, the recorded millisecond timestamp is
the exact epoch-millisecond value. -/
theorem unixMs_of_aligned {t : Int} (h : 1000000000 ∣ t) :
    unixMs t = t.tdiv 1000000 := by
  obtain ⟨m, rfl⟩ := h
  unfold unixMs unixSec
  rw [Int.mul_ediv_cancel_left _ (by norm_num),
    show (1000000000 : Int) * m = 1000000 * (1000 * m) from by ring,
    Int.mul_tdiv_cancel_left _ (by norm_num)]
  ring

/-- C9 (amended): a successful `createBlock` writes a descriptor with
version 1, the block's identifier, `numChunks` equal to the series
count times the truncated quotient of the block duration by the chunk
length, `numSamples = numChunks * samplesPerChunk`, `numSeries` the
number of configured generators, and compaction level 1 with the
block's own identifier as sole source; `minTime`/`maxTime` are the
window bounds truncated to whole seconds and expressed in milliseconds
(equal to the exact epoch-millisecond bounds when the bounds are
second-aligned, but not in general — see the counterexample). -/
theorem C9_block_meta (gens : List Generator) (iv bs be : Int) (id : String)
    (out : BlockOut) (h : createBlock gens iv bs be id = .ok out) :
    out.meta.version = 1 ∧
    out.meta.ulid = id ∧
    out.meta.minTime = unixMs bs ∧
    out.meta.maxTime = unixMs be ∧
    (1000000000 ∣ bs → out.meta.minTime = bs.tdiv 1000000) ∧
    (1000000000 ∣ be → out.meta.maxTime = be.tdiv 1000000) ∧
    out.meta.numChunks
      = (gens.length : Int) * ((be - bs).tdiv (iv * (samplesPerChunk : Int))) ∧
    out.meta.numSamples = out.meta.numChunks * (samplesPerChunk : Int) ∧
    out.meta.numSeries = gens.length ∧
    out.meta.compactionLevel = 1 ∧
    out.meta.compactionSources = [id] := by
  rw [createBlock] at h
  cases hp : populateChunks (gens.map fun g => g.encSize) bs be iv with
  | error e => rw [hp] at h; exact absurd h (by simp)
  | ok sers =>
    simp only [hp, Except.ok.injEq] at h
    rw [← h]
    refine ⟨rfl, rfl, rfl, rfl, ?_, ?_, rfl, rfl, rfl, rfl, rfl⟩
    · intro hdvd; exact unixMs_of_aligned hdvd
    · intro hdvd; exact unixMs_of_aligned hdvd

/-- Counterexample to C9 as stated: a block starting half a second after
the epoch records `minTime = 0`, not the window's epoch-millisecond
lower bound `500`: times are truncated to whole seconds before the
millisecond conversion. -/
theorem C9_block_meta_cex :
    createBlock [] 15000000000 500000000 7200500000000 "b"
      = .ok ⟨⟨1, "b", 0, 7200000, 0, 0, 0, 1, ["b"]⟩, []⟩ ∧
    (500000000 : Int).tdiv 1000000 = 500 ∧
    (0 : Int) ≠ 500 :=
  ⟨by rfl, by decide, by decide⟩

/-- Witness for C9 on an empty-series two-hour block at the epoch. -/
theorem C9_block_meta_witness :
    createBlock [] 15000000000 0 7200000000000 "b"
      = .ok ⟨⟨1, "b", 0, 7200000, 0, 0, 0, 1, ["b"]⟩, []⟩ ∧
    ((⟨⟨1, "b", 0, 7200000, 0, 0, 0, 1, ["b"]⟩, []⟩ : BlockOut).meta.version = 1 ∧
      (⟨⟨1, "b", 0, 7200000, 0, 0, 0, 1, ["b"]⟩, []⟩ : BlockOut).meta.ulid = "b" ∧
      (⟨⟨1, "b", 0, 7200000, 0, 0, 0, 1, ["b"]⟩, []⟩ : BlockOut).meta.minTime
        = unixMs 0 ∧
      (⟨⟨1, "b", 0, 7200000, 0, 0, 0, 1, ["b"]⟩, []⟩ : BlockOut).meta.maxTime
        = unixMs 7200000000000 ∧
      ((1000000000 : Int) ∣ 0 →
        (⟨⟨1, "b", 0, 7200000, 0, 0, 0, 1, ["b"]⟩, []⟩ : BlockOut).meta.minTime
          = (0 : Int).tdiv 1000000) ∧
      ((1000000000 : Int) ∣ 7200000000000 →
        (⟨⟨1, "b", 0, 7200000, 0, 0, 0, 1, ["b"]⟩, []⟩ : BlockOut).meta.maxTime
          = (7200000000000 : Int).tdiv 1000000) ∧
      (⟨⟨1, "b", 0, 7200000, 0, 0, 0, 1, ["b"]⟩, []⟩ : BlockOut).meta.numChunks
        = (([] : List Generator).length : Int)
            * (((7200000000000 : Int) - 0).tdiv
                (15000000000 * (samplesPerChunk : Int))) ∧
      (⟨⟨1, "b", 0, 7200000, 0, 0, 0, 1, ["b"]⟩, []⟩ : BlockOut).meta.numSamples
        = (⟨⟨1, "b", 0, 7200000, 0, 0, 0, 1, ["b"]⟩, []⟩ : BlockOut).meta.numChunks
            * (samplesPerChunk : Int) ∧
      (⟨⟨1, "b", 0, 7200000, 0, 0, 0, 1, ["b"]⟩, []⟩ : BlockOut).meta.numSeries
        = ([] : List Generator).length ∧
      (⟨⟨1, "b", 0, 7200000, 0, 0, 0, 1, ["b"]⟩, []⟩
          : BlockOut).meta.compactionLevel = 1 ∧
      (⟨⟨1, "b", 0, 7200000, 0, 0, 0, 1, ["b"]⟩, []⟩
          : BlockOut).meta.compactionSources = ["b"]) :=
  ⟨by rfl,
    C9_block_meta [] 15000000000 0 7200000000000 "b"
      ⟨⟨1, "b", 0, 7200000, 0, 0, 0, 1, ["b"]⟩, []⟩ (by rfl)⟩

/-- C3: for `start < end` and a positive block length, the block
planner's windows `[w, w + blockLength)` begin exactly at `start`, are
consecutive, are produced exactly while `w < end`, tile `[start, end)`
with no gaps (every in-range instant is covered) and no overlaps
(pairwise disjoint windows), only the last window may extend past
`end`, and `CreateThanosTSDB` constructs exactly one block per
window. -/
theorem C3_block_planner (s e d : Int) (hlt : s < e) (hd : 0 < d) :
    (gridStarts s e d).head? = some s ∧
    (gridStarts s e d).Chain' (fun a b => b = a + d) ∧
    (∀ w ∈ gridStarts s e d, w < e) ∧
    (∀ t, s ≤ t → t < e → ∃ w ∈ gridStarts s e d, w ≤ t ∧ t < w + d) ∧
    (gridStarts s e d).Pairwise (fun a b => a + d ≤ b) ∧
    (∀ w ∈ (gridStarts s e d).dropLast, w + d ≤ e) ∧
    (∀ (now : Int) (ids : Int → String) (gens : List Generator)
        (ivOpt : Int) (outs : List BlockOut),
      createThanosTSDB now ids ⟨gens, some s, some e, ivOpt, d⟩ = .ok outs →
      outs.length = (gridStarts s e d).length) := by
  refine ⟨gridStarts_head hd hlt, gridStarts_chain s e d,
    fun w hw => gridStarts_lt_stop hd hw,
    fun t ht1 ht2 => gridStarts_cover hd ht1 ht2,
    gridStarts_pairwise hd, gridStarts_dropLast, ?_⟩
  intro now ids gens ivOpt outs h
  rw [createThanosTSDB] at h
  simp only [Option.getD_some] at h
  rw [if_neg (by omega)] at h
  rw [show defaultDur d 7200000000000 = d from by
    rw [defaultDur, if_neg (by omega)]] at h
  exact mapExcept_length h

/-- Witness for C3 on the range `[0, 5)` with block length 2. -/
theorem C3_block_planner_witness :
    (0 : Int) < 5 ∧ (0 : Int) < 2 ∧
    ((gridStarts 0 5 2).head? = some 0 ∧
      (gridStarts 0 5 2).Chain' (fun a b => b = a + 2) ∧
      (∀ w ∈ gridStarts 0 5 2, w < 5) ∧
      (∀ t, (0 : Int) ≤ t → t < 5 →
        ∃ w ∈ gridStarts 0 5 2, w ≤ t ∧ t < w + 2) ∧
      (gridStarts 0 5 2).Pairwise (fun a b => a + 2 ≤ b) ∧
      (∀ w ∈ (gridStarts 0 5 2).dropLast, w + 2 ≤ 5) ∧
      (∀ (now : Int) (ids : Int → String) (gens : List Generator)
          (ivOpt : Int) (outs : List BlockOut),
        createThanosTSDB now ids ⟨gens, some 0, some 5, ivOpt, 2⟩ = .ok outs →
        outs.length = (gridStarts 0 5 2).length)) :=
  ⟨by norm_num, by norm_num, C3_block_planner 0 5 2 (by norm_num) (by norm_num)⟩

/-- C7 (amended): after defaulting, block construction fails fast with
the configuration error exactly when the start time is strictly after
the end time; equal start and end times are accepted and yield zero
blocks, contrary to the claim that `startTime >= endTime` is rejected
(the code's check is `StartTime.After(EndTime)`, which is strict). -/
theorem C7_config_error (now : Int) (ids : Int → String) (o : OptsM) :
    (o.endTime.getD now < o.startTime.getD (now - 604800000000000) →
      createThanosTSDB now ids o
        = .error "end time cannot come after start time") ∧
    (o.startTime.getD (now - 604800000000000) = o.endTime.getD now →
      createThanosTSDB now ids o = .ok []) := by
  constructor
  · intro hlt
    simp only [createThanosTSDB]
    rw [if_pos hlt]
  · intro heq
    simp only [createThanosTSDB]
    rw [if_neg (by omega), ← heq,
      gridStarts_neg (fun hcon => absurd hcon.2 (lt_irrefl _))]
    rfl

/-- Counterexample to C7 as stated: a configuration whose start time
equals its end time is not rejected — construction succeeds and simply
produces zero blocks. -/
theorem C7_config_error_cex :
    createThanosTSDB 0 (fun _ => "b") ⟨[], some 5, some 5, 0, 0⟩ = .ok [] ∧
    ∀ msg : String,
      createThanosTSDB 0 (fun _ => "b") ⟨[], some 5, some 5, 0, 0⟩
        ≠ .error msg := by
  have h : createThanosTSDB 0 (fun _ => "b") ⟨[], some 5, some 5, 0, 0⟩
      = .ok [] := by
    simp only [createThanosTSDB, Option.getD_some]
    rw [if_neg (by omega),
      gridStarts_neg (fun hcon => absurd hcon.2 (lt_irrefl _))]
    rfl
  refine ⟨h, fun msg hmsg => ?_⟩
  rw [h] at hmsg
  exact Except.noConfusion hmsg

/-- Witness for C7: start 5, end 3 errors; start 5, end 5 succeeds with
zero blocks. -/
theorem C7_config_error_witness :
    ((Option.getD (some 3) (0 : Int) <
        Option.getD (some 5) ((0 : Int) - 604800000000000)) ∧
      createThanosTSDB 0 (fun _ => "b") ⟨[], some 5, some 3, 0, 0⟩
        = .error "end time cannot come after start time") ∧
    ((Option.getD (some 5) ((0 : Int) - 604800000000000)
        = Option.getD (some 5) (0 : Int)) ∧
      createThanosTSDB 0 (fun _ => "b") ⟨[], some 5, some 5, 0, 0⟩ = .ok []) :=
  ⟨⟨by norm_num,
      (C7_config_error 0 (fun _ => "b") ⟨[], some 5, some 3, 0, 0⟩).1
        (by norm_num)⟩,
    ⟨by norm_num,
      (C7_config_error 0 (fun _ => "b") ⟨[], some 5, some 5, 0, 0⟩).2
        (by norm_num)⟩⟩

/-- C10: with a strictly positive block length and sample interval
after defaulting, the block loop of `CreateThanosTSDB` and the per-chunk
and per-sample loops of `populateChunks` all terminate (some finite
fuel completes each loop); the defaulting replaces only exactly-zero
durations, so a negative duration is accepted unchecked, and with a
non-positive step any of these loops runs forever on a non-trivial
range — positivity is a genuine precondition for termination. -/
theorem C10_termination (s e iv bl : Int) :
    (iv ≠ 0 → defaultDur iv 15000000000 = iv) ∧
    (bl ≠ 0 → defaultDur bl 7200000000000 = bl) ∧
    (0 < bl → ∃ fuel, (loopFuel fuel s e bl).isSome) ∧
    (0 < iv →
      (∃ fuel, (loopFuel fuel s e (iv * (samplesPerChunk : Int))).isSome) ∧
      ∀ cs : Int, ∃ fuel,
        (loopFuel fuel cs (cs + iv * (samplesPerChunk : Int)) iv).isSome) ∧
    (bl ≤ 0 → s < e → ∀ fuel, loopFuel fuel s e bl = none) ∧
    (iv ≤ 0 → s < e → ∀ fuel, loopFuel fuel s e iv = none) := by
  refine ⟨?_, ?_, ?_, ?_, ?_, ?_⟩
  · intro h; rw [defaultDur, if_neg h]
  · intro h; rw [defaultDur, if_neg h]
  · intro h
    exact ⟨(e - s).toNat, by rw [loopFuel_gridStarts h]; rfl⟩
  · intro h
    have hpos : (0 : Int) < iv * (samplesPerChunk : Int) :=
      mul_pos h (by norm_num [samplesPerChunk])
    refine ⟨⟨(e - s).toNat, by rw [loopFuel_gridStarts hpos]; rfl⟩, fun cs => ?_⟩
    exact ⟨(cs + iv * (samplesPerChunk : Int) - cs).toNat,
      by rw [loopFuel_gridStarts h]; rfl⟩
  · intro h hse fuel
    exact loopFuel_nonpos h fuel s hse
  · intro h hse fuel
    exact loopFuel_nonpos h fuel s hse

/-- Witness for C10: a negative sample interval passes defaulting
unchanged, the block loop with length 2 over `[0, 10)` terminates, and
the same loop with step `-1` never finishes on any fuel. -/
theorem C10_termination_witness :
    defaultDur (-5) 15000000000 = -5 ∧
    (∃ fuel, (loopFuel fuel 0 10 2).isSome) ∧
    (∀ fuel, loopFuel fuel 0 10 (-1) = none) :=
  ⟨(C10_termination 0 10 (-5) (-1)).1 (by norm_num),
    (C10_termination 0 10 (-5) 2).2.2.1 (by norm_num),
    fun fuel =>
      (C10_termination 0 10 (-5) (-1)).2.2.2.2.1 (by norm_num) (by norm_num)
        fuel⟩
